import Mathlib

/-! Shallow embedding of the chuid parallel ownership-rewrite tool:
src/chuid.c, src/hash.c, src/queue.c, src/config.c.  Machine integers that can
wrap (size_t) are modelled as Nat with explicit reduction mod 2 ^ 64; C doubles
that only feed comparisons and divisions are modelled as Rat. -/

namespace Chuid

/-! ## HardlinkSet: hash.c -/

/-- Functional image of struct htab (chuid.h, hash.c).  mod is the bucket
count, het_tab_size the capacity of the entry arena, arena the stored
(ino, dev) entries in insertion order (so first_free = arena.length), and
buckets b the chain hanging off hash[b] via the c_link pointers, head first. -/
structure Htab where
  mod : Nat
  het_tab_size : Nat
  arena : List (Nat × Nat)
  buckets : Nat → List (Nat × Nat)

/-- h_init together with h_reset (hash.c lines 7 to 40): fresh table with an
empty arena and all chains empty. -/
def h_init (m sz : Nat) : Htab :=
  { mod := m, het_tab_size := sz, arena := [], buckets := fun _ => [] }

/-- INIT_MODULE (chuid.h line 68). -/
def INIT_MODULE : Nat := 100

/-- INIT_TAB_SIZE (chuid.h line 69). -/
def INIT_TAB_SIZE : Nat := 70

/-- h_ins (hash.c lines 42 to 64): scan the chain of bucket ino mod mod; if
(ino, dev) is already on it return 1 (true) and leave the table unchanged,
otherwise store the entry at het_tab[first_free++], hook it at the head of the
chain and return 0 (false). -/
def h_ins (ht : Htab) (ino dev : Nat) : Bool × Htab :=
  let b := ino % ht.mod
  let chain := ht.buckets b
  if (ino, dev) ∈ chain then (true, ht)
  else
    (false,
      { ht with
        arena := ht.arena ++ [(ino, dev)]
        buckets := fun i => if i = b then (ino, dev) :: chain else ht.buckets i })

/-- Growth step of h_mins (hash.c lines 73 to 105): double mod and
het_tab_size, reset the chains and the arena, then re-insert every stored
entry in arena order.  The C re-insertion loop reads het_tab position k before
any write can reach it (writes land at first_free ≤ k), so it re-inserts the
original entries, which the fold over the saved arena reproduces. -/
def h_grow (ht : Htab) : Htab :=
  ht.arena.foldl (fun h p => (h_ins h p.1 p.2).2)
    { mod := 2 * ht.mod, het_tab_size := 2 * ht.het_tab_size, arena := [],
      buckets := fun _ => [] }

/-- h_mins (hash.c lines 66 to 107): grow when the arena is full (first_free
at least het_tab_size), then insert; returns 1 (true) iff the pair had been
seen before. -/
def h_mins (ht : Htab) (ino dev : Nat) : Bool × Htab :=
  let ht' := if ht.het_tab_size ≤ ht.arena.length then h_grow ht else ht
  h_ins ht' ino dev

/-- Answers of a serialized sequence of h_mins calls; the thr_nlink mutex in
process_tile (chuid.c lines 680 to 683) linearizes the calls of all workers
into such a sequence. -/
def runMins : Htab → List (Nat × Nat) → List Bool
  | _, [] => []
  | ht, c :: cs =>
    let st := h_mins ht c.1 c.2
    st.1 :: runMins st.2 cs

/-- Table state after a serialized sequence of h_mins calls. -/
def runState : Htab → List (Nat × Nat) → Htab
  | ht, [] => ht
  | ht, c :: cs => runState (h_mins ht c.1 c.2).2 cs

/-- Modelled from the spec for the refinement comparison: the HardlinkSet as
a plain set of pairs, answering was-present and inserting on each call. -/
def firstSeenSpec : List (Nat × Nat) → List (Nat × Nat) → List Bool
  | _, [] => []
  | seen, c :: cs => decide (c ∈ seen) :: firstSeenSpec (c :: seen) cs

/-- Correctness invariant of the table: a pair is stored in the arena iff it
hangs on the chain of its home bucket. -/
def HtabInv (ht : Htab) : Prop :=
  ∀ q : Nat × Nat, q ∈ ht.arena ↔ q ∈ ht.buckets (q.1 % ht.mod)

/-! ## Regular-file visits and the hardlink dedup guard: process_tile -/

/-- One lstat result of a regular file: inode, device and hardlink count. -/
structure RegVisit where
  ino : Nat
  dev : Nat
  nlink : Nat
deriving DecidableEq

/-- Regular-file branch of process_tile (chuid.c lines 677 to 830): when
nlink > 1 the worker calls h_mins under thr_nlink, and the id rewrite runs iff
nlink == 1 or the pair was new.  The Bool records whether the visit proceeded
to the rewrite. -/
def visit_rewrites : Htab → List RegVisit → List (RegVisit × Bool)
  | _, [] => []
  | ht, v :: vs =>
    let st := if 1 < v.nlink then h_mins ht v.ino v.dev else (false, ht)
    (v, decide (v.nlink = 1) || !st.1) :: visit_rewrites st.2 vs

/-- Number of visits of the (dev, ino) class (i, d) with nlink > 1 that
proceed to the id rewrite, starting from table state ht. -/
def class_rewrite_count_from (ht : Htab) (vs : List RegVisit) (i d : Nat) : Nat :=
  (visit_rewrites ht vs).countP
    (fun p => decide (p.1.ino = i ∧ p.1.dev = d ∧ 1 < p.1.nlink ∧ p.2 = true))

/-- Same, from the table state h_init INIT_MODULE INIT_TAB_SIZE that main
builds (chuid.c line 1744). -/
def class_rewrite_count (vs : List RegVisit) (i d : Nat) : Nat :=
  class_rewrite_count_from (h_init INIT_MODULE INIT_TAB_SIZE) vs i d

/-! ## Dual-queue dispatch: handle_subtree, chuid.c lines 1480 to 1503 -/

/-- Scheduler state seen by the dual-queue selection in handle_subtree: the
two shared deques (queue.c stores them front first, deq_get pops the front),
their speeds, and the global credit counter fast_nodes_befor_next_slow_node.
Items are abstracted to numeric identities. -/
structure Sched where
  fast : List Nat
  slow : List Nat
  fast_speed : Rat
  slow_speed : Rat
  credit : Int
deriving DecidableEq

/-- Credit recomputation (chuid.c lines 1486 and 1493):
(long) ceil(fast_anchor->speed / slow_anchor->speed).  Division by a zero
slow_speed is undefined behavior in the C (cast of an IEEE infinity); here it
follows the Lean convention that division by zero is zero, and no theorem
below depends on the value at zero. -/
def recalc_credit (fast_speed slow_speed : Rat) : Int :=
  ⌈fast_speed / slow_speed⌉

/-- Dual-queue selection (chuid.c lines 1481 to 1496): with positive credit
try the fast deque and pay one credit, falling back to the slow deque with a
credit recomputation; with no credit try the slow deque (recomputing credit on
success), falling back to the fast deque with the credit untouched. -/
def dispatch_select (s : Sched) : Option Nat × Sched :=
  if 0 < s.credit then
    match s.fast with
    | q :: rest => (some q, { s with fast := rest, credit := s.credit - 1 })
    | [] =>
      match s.slow with
      | q :: rest =>
        (some q, { s with slow := rest,
                          credit := recalc_credit s.fast_speed s.slow_speed })
      | [] => (none, s)
  else
    match s.slow with
    | q :: rest =>
      (some q, { s with slow := rest,
                        credit := recalc_credit s.fast_speed s.slow_speed })
    | [] =>
      match s.fast with
      | q :: rest => (some q, { s with fast := rest })
      | [] => (none, s)

/-! ## Worker pool and termination: handle_subtree, chuid.c lines 1475 to 1528 -/

/-- Shared scan state guarded by thr_queue, plus one flag per worker saying
whether it currently holds a work item (is inside process_tile).  The deques
are abstracted to their element counts, which is all the termination protocol
reads. -/
structure Conf where
  workers : List Bool
  fast : Nat
  slow : Nat
  busy : Nat
  notfinished : Bool
deriving DecidableEq

/-- Atomic critical sections a worker executes under thr_queue: taking an item
from a deque (lines 1480 to 1509), donating k items to a deque from inside
process_tile (lines 1323 to 1345), and releasing after process_tile returns
(lines 1511 to 1521). -/
inductive Ev where
  | dispatchFast (w : Nat)
  | dispatchSlow (w : Nat)
  | handbackFast (w k : Nat)
  | handbackSlow (w k : Nat)
  | release (w : Nat)
deriving DecidableEq

/-- One guarded atomic step of the termination protocol.  Dispatch requires
notfinished and a nonempty deque (only then is qe non NULL and busy_count
incremented); handback requires the worker to be busy; release decrements
busy_count and, exactly as in chuid.c lines 1513 to 1520, clears notfinished
when the decrement reaches zero with both deques empty. -/
def stepFn (c : Conf) (e : Ev) : Option Conf :=
  match e with
  | .dispatchFast w =>
    if c.workers.getD w true = false ∧ c.notfinished = true ∧ 0 < c.fast then
      some { c with fast := c.fast - 1, busy := c.busy + 1,
                    workers := c.workers.set w true }
    else none
  | .dispatchSlow w =>
    if c.workers.getD w true = false ∧ c.notfinished = true ∧ 0 < c.slow then
      some { c with slow := c.slow - 1, busy := c.busy + 1,
                    workers := c.workers.set w true }
    else none
  | .handbackFast w k =>
    if c.workers.getD w false = true ∧ 0 < k then
      some { c with fast := c.fast + k }
    else none
  | .handbackSlow w k =>
    if c.workers.getD w false = true ∧ 0 < k then
      some { c with slow := c.slow + k }
    else none
  | .release w =>
    if c.workers.getD w false = true then
      some { c with busy := c.busy - 1, workers := c.workers.set w false,
                    notfinished :=
                      if c.busy - 1 = 0 ∧ c.fast = 0 ∧ c.slow = 0 then false
                      else c.notfinished }
    else none

/-- Run a sequence of atomic steps; none marks a sequence whose guards fail. -/
def execFrom (c : Conf) : List Ev → Option Conf
  | [] => some c
  | e :: es =>
    match stepFn c e with
    | none => none
    | some c' => execFrom c' es

/-- Number of steps along the run that flip notfinished from true to false. -/
def flipCount (c : Conf) : List Ev → Nat
  | [] => 0
  | e :: es =>
    match stepFn c e with
    | none => 0
    | some c' =>
      (if c.notfinished = true ∧ c'.notfinished = false then 1 else 0) +
        flipCount c' es

/-- Number of busy workers. -/
def countTrue : List Bool → Nat
  | [] => 0
  | b :: t => (if b then 1 else 0) + countTrue t

/-- Initial shared state built by main: n idle workers, the fast deque seeded
with r roots, the slow deque empty, busy_count 0, notfinished 1. -/
def initConf (n r : Nat) : Conf :=
  { workers := List.replicate n false, fast := r, slow := 0, busy := 0,
    notfinished := true }

/-! ## Id rewrite of one entry: process_tile chown cascades -/

/-- Observable actions of the uid and gid cascades of process_tile: chown and
lchown calls (the id dimension not being changed is passed as -1 and omitted
here) and the formatted dry-run lines on stdout. -/
inductive Act where
  | chown_uid (newuid : Nat)
  | chown_gid (newgid : Nat)
  | lchown_uid (newuid : Nat)
  | lchown_gid (newgid : Nat)
  | stdout_uid_line (olduid newuid : Nat)
  | stdout_gid_line (oldgid newgid : Nat)
deriving DecidableEq

/-- Uid cascade of process_tile for one entry (chuid.c lines 690 to 703 dry,
719 to 773 wet; the link branch uses lchown, lines 835 to 918; the directory
branch repeats the file branch).  The list is walked in insertion order; on
the first entry whose olduid matches, dry-run prints one line and stops, the
wet run calls chown and stops on success, while on failure it logs and keeps
scanning.  ok says whether a given chown call succeeds. -/
def uid_scan (dryrun islink : Bool) (ok : Nat → Nat → Bool)
    (umap : List (Nat × Nat)) (uid : Nat) : List Act :=
  match umap with
  | [] => []
  | (o, n) :: rest =>
    if o = uid then
      if dryrun then [Act.stdout_uid_line o n]
      else if islink then
        if ok o n then [Act.lchown_uid n]
        else Act.lchown_uid n :: uid_scan dryrun islink ok rest uid
      else
        if ok o n then [Act.chown_uid n]
        else Act.chown_uid n :: uid_scan dryrun islink ok rest uid
    else uid_scan dryrun islink ok rest uid

/-- Gid cascade, symmetric to uid_scan (chuid.c lines 704 to 717 dry, 774 to
828 wet). -/
def gid_scan (dryrun islink : Bool) (ok : Nat → Nat → Bool)
    (gmap : List (Nat × Nat)) (gid : Nat) : List Act :=
  match gmap with
  | [] => []
  | (o, n) :: rest =>
    if o = gid then
      if dryrun then [Act.stdout_gid_line o n]
      else if islink then
        if ok o n then [Act.lchown_gid n]
        else Act.lchown_gid n :: gid_scan dryrun islink ok rest gid
      else
        if ok o n then [Act.chown_gid n]
        else Act.chown_gid n :: gid_scan dryrun islink ok rest gid
    else gid_scan dryrun islink ok rest gid

/-- Full id rewrite of one entry: the uid cascade runs first, then the gid
cascade, independently. -/
def process_entry (dryrun islink : Bool) (ok : Nat → Nat → Bool)
    (umap gmap : List (Nat × Nat)) (uid gid : Nat) : List Act :=
  uid_scan dryrun islink ok umap uid ++ gid_scan dryrun islink ok gmap gid

/-- True for the actions that reach the filesystem. -/
def is_chown_act : Act → Bool
  | .stdout_uid_line _ _ => false
  | .stdout_gid_line _ _ => false
  | _ => true

/-- First mapping pair whose old id matches, in list order. -/
def lookup_pair (m : List (Nat × Nat)) (x : Nat) : Option (Nat × Nat) :=
  match m with
  | [] => none
  | (o, n) :: rest => if o = x then some (o, n) else lookup_pair rest x

/-- Effect of one action on the (uid, gid) ownership of the entry. -/
def apply_act (own : Nat × Nat) (a : Act) : Nat × Nat :=
  match a with
  | .chown_uid n => (n, own.2)
  | .lchown_uid n => (n, own.2)
  | .chown_gid n => (own.1, n)
  | .lchown_gid n => (own.1, n)
  | .stdout_uid_line _ _ => own
  | .stdout_gid_line _ _ => own

/-! ## Whole-run ownership semantics: idempotence -/

/-- New id of x under the mapping list: the first pair whose old id is x wins
and its new id is taken; otherwise x is untouched.  This is the net effect of
the chown cascade on one id dimension when chown succeeds. -/
def apply_map (m : List (Nat × Nat)) (x : Nat) : Nat :=
  match m with
  | [] => x
  | (o, n) :: rest => if o = x then n else apply_map rest x

/-- Net effect of one complete run on a tree, the tree abstracted to the list
of ownership pairs of its inodes: every reachable, non-excluded inode has
both id dimensions rewritten through the first-match maps. -/
def run_once (umap gmap : List (Nat × Nat)) (fs : List (Nat × Nat)) :
    List (Nat × Nat) :=
  fs.map (fun e => (apply_map umap e.1, apply_map gmap e.2))

/-! ## Handback scan rate: process_tile, chuid.c lines 1319 to 1322 -/

/-- Scan rate computed at a handback: directories_scanned over the elapsed
wall clock delta when delta is positive, else directories_scanned itself. -/
def scanrate_of (directories_scanned : Nat) (delta : Rat) : Rat :=
  if 0 < delta then (directories_scanned : Rat) / delta
  else directories_scanned

/-! ## Thread-count cap: main, chuid.c lines 1678 to 1687 -/

/-- OPENFILES_OFFSET (chuid.h line 76). -/
def OPENFILES_OFFSET : Nat := 5

/-- PTHREAD_THREADS_MAX fallback (chuid.h line 78). -/
def PTHREAD_THREADS_MAX : Nat := 256

/-- Handling of option t: reject a request above PTHREAD_THREADS_MAX, else
cap through the size_t comparison max_openfiles - numthr < OPENFILES_OFFSET;
both subtractions are C unsigned arithmetic, modelled mod 2 ^ 64. -/
def cap_threads (requested max_openfiles : Nat) : Option Nat :=
  if PTHREAD_THREADS_MAX < requested then none
  else if (max_openfiles + 2 ^ 64 - requested) % 2 ^ 64 < OPENFILES_OFFSET then
    some ((max_openfiles + 2 ^ 64 - OPENFILES_OFFSET) % 2 ^ 64)
  else some requested

/-! ## Root seeding: main, chuid.c lines 1768 to 1811 -/

/-- Seeding loop of main over the parsed roots list: each root is lstat-ed
by the main thread; a root whose lstat succeeds is appended to the fast
deque, a failing one is logged at WARNING and dropped.  A root is a pair of
an abstract path and its lstat outcome.  Returns (deque contents, warned
paths), both in traversal order. -/
def seed_roots : List (Nat × Bool) → List Nat × List Nat
  | [] => ([], [])
  | (p, ok) :: rest =>
    let r := seed_roots rest
    if ok then (p :: r.1, r.2) else (r.1, p :: r.2)

/-- Seeding phase of main: with no configured root, or with no root passing
lstat, print an error and exit EXIT_FAILURE (worker threads are created only
after this phase, chuid.c lines 1835 to 1849); otherwise hand the seeded fast
deque on to the worker pool. -/
def main_seed (roots : List (Nat × Bool)) : Except Nat (List Nat) :=
  if roots = [] then Except.error 1
  else if (seed_roots roots).1 = [] then Except.error 1
  else Except.ok (seed_roots roots).1

/-! ## Lemmas about the hash table -/

theorem h_ins_mod (ht : Htab) (i d : Nat) : (h_ins ht i d).2.mod = ht.mod := by
  simp only [h_ins]
  split <;> rfl

theorem h_ins_size (ht : Htab) (i d : Nat) :
    (h_ins ht i d).2.het_tab_size = ht.het_tab_size := by
  simp only [h_ins]
  split <;> rfl

theorem h_ins_fst (ht : Htab) (i d : Nat) (hinv : HtabInv ht) :
    (h_ins ht i d).1 = decide ((i, d) ∈ ht.arena) := by
  have hiff := hinv (i, d)
  simp only [h_ins]
  split
  · next hmem => simp [hiff.mpr hmem]
  · next hmem =>
    have hn : ¬ (i, d) ∈ ht.arena := fun hc => hmem (hiff.mp hc)
    simp [hn]

theorem h_ins_mem (ht : Htab) (i d : Nat) (hinv : HtabInv ht) (q : Nat × Nat) :
    q ∈ (h_ins ht i d).2.arena ↔ q = (i, d) ∨ q ∈ ht.arena := by
  simp only [h_ins]
  split
  · next hmem =>
    constructor
    · exact fun h => Or.inr h
    · rintro (rfl | h)
      · exact (hinv _).mpr hmem
      · exact h
  · next hmem =>
    simp only [List.mem_append, List.mem_singleton]
    tauto

theorem h_ins_inv (ht : Htab) (i d : Nat) (hinv : HtabInv ht) :
    HtabInv (h_ins ht i d).2 := by
  simp only [h_ins]
  split
  · exact hinv
  · next hmem =>
    intro q
    simp only [List.mem_append, List.mem_singleton]
    by_cases hq : q.1 % ht.mod = i % ht.mod
    · simp only [hq, if_pos]
      rw [List.mem_cons]
      have := hinv q
      rw [hq] at this
      tauto
    · simp only [if_neg hq]
      have := hinv q
      constructor
      · rintro (h | rfl)
        · exact this.mp h
        · exact absurd rfl hq
      · exact fun h => Or.inl (this.mpr h)

theorem foldl_ins_mod (l : List (Nat × Nat)) (h0 : Htab) :
    (l.foldl (fun h p => (h_ins h p.1 p.2).2) h0).mod = h0.mod := by
  induction l generalizing h0 with
  | nil => rfl
  | cons p t ih => rw [List.foldl_cons, ih, h_ins_mod]

theorem foldl_ins_size (l : List (Nat × Nat)) (h0 : Htab) :
    (l.foldl (fun h p => (h_ins h p.1 p.2).2) h0).het_tab_size =
      h0.het_tab_size := by
  induction l generalizing h0 with
  | nil => rfl
  | cons p t ih => rw [List.foldl_cons, ih, h_ins_size]

theorem foldl_ins_spec (l : List (Nat × Nat)) (h0 : Htab) (hinv : HtabInv h0) :
    HtabInv (l.foldl (fun h p => (h_ins h p.1 p.2).2) h0) ∧
      ∀ q, q ∈ (l.foldl (fun h p => (h_ins h p.1 p.2).2) h0).arena ↔
        q ∈ l ∨ q ∈ h0.arena := by
  induction l generalizing h0 with
  | nil => exact ⟨hinv, by simp⟩
  | cons p t ih =>
    rw [List.foldl_cons]
    obtain ⟨ih1, ih2⟩ := ih _ (h_ins_inv h0 p.1 p.2 hinv)
    refine ⟨ih1, fun q => ?_⟩
    rw [ih2 q, h_ins_mem h0 p.1 p.2 hinv q, List.mem_cons]
    tauto

theorem h_grow_mod (ht : Htab) : (h_grow ht).mod = 2 * ht.mod := by
  simp only [h_grow]
  rw [foldl_ins_mod]

theorem h_grow_size (ht : Htab) :
    (h_grow ht).het_tab_size = 2 * ht.het_tab_size := by
  simp only [h_grow]
  rw [foldl_ins_size]

theorem h_grow_inv (ht : Htab) : HtabInv (h_grow ht) := by
  simp only [h_grow]
  exact (foldl_ins_spec ht.arena _ (fun q => by simp)).1

theorem h_grow_mem (ht : Htab) (_hinv : HtabInv ht) (q : Nat × Nat) :
    q ∈ (h_grow ht).arena ↔ q ∈ ht.arena := by
  simp only [h_grow]
  rw [(foldl_ins_spec ht.arena _ (fun r => by simp)).2 q]
  simp

theorem h_mins_fst (ht : Htab) (i d : Nat) (hinv : HtabInv ht) :
    (h_mins ht i d).1 = decide ((i, d) ∈ ht.arena) := by
  simp only [h_mins]
  split
  · rw [h_ins_fst _ _ _ (h_grow_inv ht)]
    exact decide_eq_decide.mpr (h_grow_mem ht hinv (i, d))
  · exact h_ins_fst _ _ _ hinv

theorem h_mins_mem (ht : Htab) (i d : Nat) (hinv : HtabInv ht) (q : Nat × Nat) :
    q ∈ (h_mins ht i d).2.arena ↔ q = (i, d) ∨ q ∈ ht.arena := by
  simp only [h_mins]
  split
  · rw [h_ins_mem _ _ _ (h_grow_inv ht) q, h_grow_mem ht hinv q]
  · exact h_ins_mem _ _ _ hinv q

theorem h_mins_inv (ht : Htab) (i d : Nat) (hinv : HtabInv ht) :
    HtabInv (h_mins ht i d).2 := by
  simp only [h_mins]
  split
  · exact h_ins_inv _ _ _ (h_grow_inv ht)
  · exact h_ins_inv _ _ _ hinv

theorem h_init_inv (m sz : Nat) : HtabInv (h_init m sz) := by
  intro q
  simp [h_init]

theorem runMins_spec (cs : List (Nat × Nat)) :
    ∀ (ht : Htab) (seen : List (Nat × Nat)), HtabInv ht →
      (∀ q, q ∈ ht.arena ↔ q ∈ seen) →
      runMins ht cs = firstSeenSpec seen cs := by
  induction cs with
  | nil => intros; rfl
  | cons c t ih =>
    intro ht seen hinv hmem
    simp only [runMins, firstSeenSpec]
    have hhd : (h_mins ht c.1 c.2).1 = decide (c ∈ seen) := by
      rw [h_mins_fst ht c.1 c.2 hinv]
      exact decide_eq_decide.mpr (by rw [show ((c.1, c.2) : Nat × Nat) = c from rfl]; exact hmem c)
    rw [hhd]
    congr 1
    refine ih (h_mins ht c.1 c.2).2 (c :: seen) (h_mins_inv ht c.1 c.2 hinv)
      (fun q => ?_)
    rw [h_mins_mem ht c.1 c.2 hinv q, List.mem_cons, hmem q]

theorem runState_spec (cs : List (Nat × Nat)) :
    ∀ ht : Htab, HtabInv ht →
      HtabInv (runState ht cs) ∧
        ∀ q, q ∈ (runState ht cs).arena ↔ q ∈ cs ∨ q ∈ ht.arena := by
  induction cs with
  | nil => exact fun ht hinv => ⟨hinv, by simp [runState]⟩
  | cons c t ih =>
    intro ht hinv
    simp only [runState]
    obtain ⟨ih1, ih2⟩ := ih _ (h_mins_inv ht c.1 c.2 hinv)
    refine ⟨ih1, fun q => ?_⟩
    rw [ih2 q, h_mins_mem ht c.1 c.2 hinv q, List.mem_cons]
    simp only [Prod.mk.eta]
    tauto

theorem crc_from_cons (ht : Htab) (v : RegVisit) (t : List RegVisit) (i d : Nat) :
    class_rewrite_count_from ht (v :: t) i d =
      class_rewrite_count_from
          (if 1 < v.nlink then h_mins ht v.ino v.dev else (false, ht)).2 t i d +
        (if v.ino = i ∧ v.dev = d ∧ 1 < v.nlink ∧
            (decide (v.nlink = 1) ||
              !(if 1 < v.nlink then h_mins ht v.ino v.dev else (false, ht)).1) =
              true
         then 1 else 0) := by
  simp [class_rewrite_count_from, visit_rewrites, List.countP_cons]

theorem crc_from_zero (vs : List RegVisit) :
    ∀ (ht : Htab) (i d : Nat), HtabInv ht → (i, d) ∈ ht.arena →
      class_rewrite_count_from ht vs i d = 0 := by
  induction vs with
  | nil => intros; rfl
  | cons v t ih =>
    intro ht i d hinv hmem
    rw [crc_from_cons]
    by_cases hn : 1 < v.nlink
    · simp only [if_pos hn]
      have hrest : class_rewrite_count_from (h_mins ht v.ino v.dev).2 t i d = 0 :=
        ih _ i d (h_mins_inv _ _ _ hinv)
          ((h_mins_mem ht v.ino v.dev hinv (i, d)).mpr (Or.inr hmem))
      rw [hrest]
      by_cases hc : v.ino = i ∧ v.dev = d
      · have hfst : (h_mins ht v.ino v.dev).1 = true := by
          rw [h_mins_fst ht v.ino v.dev hinv, hc.1, hc.2]
          simpa using hmem
        have h1 : ¬ v.nlink = 1 := by omega
        simp [hfst, h1]
      · simp only [Nat.zero_add]
        rw [if_neg]
        rintro ⟨hi, hd, -⟩
        exact hc ⟨hi, hd⟩
    · simp only [if_neg hn]
      have hrest := ih ht i d hinv hmem
      rw [hrest]
      simp only [Nat.zero_add]
      rw [if_neg]
      rintro ⟨-, -, hk, -⟩
      exact hn hk

theorem crc_from_le_one (vs : List RegVisit) :
    ∀ (ht : Htab) (i d : Nat), HtabInv ht →
      class_rewrite_count_from ht vs i d ≤ 1 := by
  induction vs with
  | nil => intro ht i d _; simp [class_rewrite_count_from, visit_rewrites]
  | cons v t ih =>
    intro ht i d hinv
    rw [crc_from_cons]
    by_cases hn : 1 < v.nlink
    · simp only [if_pos hn]
      by_cases hc : v.ino = i ∧ v.dev = d ∧
          (decide (v.nlink = 1) || !(h_mins ht v.ino v.dev).1) = true
      · obtain ⟨hi, hd, hflag⟩ := hc
        have h1 : ¬ v.nlink = 1 := by omega
        have hfst : (h_mins ht v.ino v.dev).1 = false := by
          simp [h1] at hflag
          exact hflag
        have hnew : (i, d) ∉ ht.arena := by
          intro hmem
          rw [h_mins_fst ht v.ino v.dev hinv, hi, hd] at hfst
          simp [hmem] at hfst
        have hrest : class_rewrite_count_from (h_mins ht v.ino v.dev).2 t i d = 0 :=
          crc_from_zero t _ i d (h_mins_inv _ _ _ hinv)
            ((h_mins_mem ht v.ino v.dev hinv (i, d)).mpr
              (Or.inl (by rw [hi, hd])))
        rw [hrest]
        split <;> omega
      · rw [if_neg (by rintro ⟨hi, hd, -, hflag⟩; exact hc ⟨hi, hd, hflag⟩)]
        have := ih (h_mins ht v.ino v.dev).2 i d (h_mins_inv _ _ _ hinv)
        omega
    · simp only [if_neg hn]
      rw [if_neg (by rintro ⟨-, -, hk, -⟩; exact hn hk)]
      have := ih ht i d hinv
      omega

theorem crc_from_one (vs : List RegVisit) :
    ∀ (ht : Htab) (i d : Nat), HtabInv ht → (i, d) ∉ ht.arena →
      (∃ v ∈ vs, v.ino = i ∧ v.dev = d ∧ 1 < v.nlink) →
      class_rewrite_count_from ht vs i d = 1 := by
  induction vs with
  | nil => rintro ht i d _ _ ⟨v, hv, -⟩; cases hv
  | cons v t ih =>
    intro ht i d hinv hnew hex
    rw [crc_from_cons]
    by_cases hc : v.ino = i ∧ v.dev = d ∧ 1 < v.nlink
    · obtain ⟨hi, hd, hn⟩ := hc
      simp only [if_pos hn]
      have hfst : (h_mins ht v.ino v.dev).1 = false := by
        rw [h_mins_fst ht v.ino v.dev hinv, hi, hd]
        simpa using hnew
      have hrest : class_rewrite_count_from (h_mins ht v.ino v.dev).2 t i d = 0 :=
        crc_from_zero t _ i d (h_mins_inv _ _ _ hinv)
          ((h_mins_mem ht v.ino v.dev hinv (i, d)).mpr
            (Or.inl (by rw [hi, hd])))
      rw [hrest]
      rw [if_pos ⟨hi, hd, hn, by simp [hfst]⟩]
    · by_cases hn : 1 < v.nlink
      · simp only [if_pos hn]
        have hrest :=
          ih (h_mins ht v.ino v.dev).2 i d (h_mins_inv _ _ _ hinv)
            (by
              rw [h_mins_mem ht v.ino v.dev hinv (i, d)]
              rintro (hpair | hmem)
              · rw [Prod.ext_iff] at hpair
                exact hc ⟨hpair.1.symm, hpair.2.symm, hn⟩
              · exact hnew hmem)
            (by
              obtain ⟨u, hu, hcls⟩ := hex
              rcases List.mem_cons.mp hu with rfl | hu
              · exact absurd hcls hc
              · exact ⟨u, hu, hcls⟩)
        rw [hrest]
        rw [if_neg (by rintro ⟨hi, hd, hk, -⟩; exact hc ⟨hi, hd, hk⟩)]
      · simp only [if_neg hn]
        have hrest :=
          ih ht i d hinv hnew
            (by
              obtain ⟨u, hu, hcls⟩ := hex
              rcases List.mem_cons.mp hu with rfl | hu
              · exact absurd hcls.2.2 hn
              · exact ⟨u, hu, hcls⟩)
        rw [hrest]
        rw [if_neg (by rintro ⟨-, -, hk, -⟩; exact hn hk)]

/-! ## Lemmas about the termination protocol -/

theorem countTrue_replicate (n : Nat) :
    countTrue (List.replicate n false) = 0 := by
  induction n with
  | zero => rfl
  | succ m ih => simp [List.replicate, countTrue, ih]

theorem countTrue_set_true (l : List Bool) :
    ∀ w, l.getD w true = false → countTrue (l.set w true) = countTrue l + 1 := by
  induction l with
  | nil => intro w h; simp [List.getD] at h
  | cons b t ih =>
    intro w h
    cases w with
    | zero =>
      simp only [List.getD_cons_zero] at h
      subst h
      simp [List.set, countTrue, Nat.add_comm]
    | succ m =>
      simp only [List.getD_cons_succ] at h
      simp [List.set, countTrue, ih m h, Nat.add_assoc]

theorem countTrue_set_false (l : List Bool) :
    ∀ w, l.getD w false = true → countTrue l = countTrue (l.set w false) + 1 := by
  induction l with
  | nil => intro w h; simp [List.getD] at h
  | cons b t ih =>
    intro w h
    cases w with
    | zero =>
      simp only [List.getD_cons_zero] at h
      subst h
      simp [List.set, countTrue, Nat.add_comm]
    | succ m =>
      simp only [List.getD_cons_succ] at h
      simp only [List.set, countTrue]
      rw [ih m h]
      omega

theorem countTrue_zero (l : List Bool) :
    countTrue l = 0 → ∀ w, l.getD w false = false := by
  induction l with
  | nil => intro _ w; simp [List.getD]
  | cons b t ih =>
    intro h w
    simp only [countTrue] at h
    have hb : b = false := by
      by_contra hb
      simp [hb] at h
    have ht : countTrue t = 0 := by
      rw [hb] at h
      simpa using h
    cases w with
    | zero => simpa [List.getD_cons_zero] using hb
    | succ m => simpa [List.getD_cons_succ] using ih ht m

theorem stepFn_nf_mono (c : Conf) (e : Ev) (c' : Conf)
    (h : stepFn c e = some c') (hnf : c.notfinished = false) :
    c'.notfinished = false := by
  cases e with
  | dispatchFast w =>
    simp only [stepFn] at h
    split at h
    · next hcond =>
      rw [hcond.2.1] at hnf
      cases hnf
    · cases h
  | dispatchSlow w =>
    simp only [stepFn] at h
    split at h
    · next hcond =>
      rw [hcond.2.1] at hnf
      cases hnf
    · cases h
  | handbackFast w k =>
    simp only [stepFn] at h
    split at h
    · injection h with h
      subst h
      exact hnf
    · cases h
  | handbackSlow w k =>
    simp only [stepFn] at h
    split at h
    · injection h with h
      subst h
      exact hnf
    · cases h
  | release w =>
    simp only [stepFn] at h
    split at h
    · injection h with h
      subst h
      simp only
      split
      · rfl
      · exact hnf
    · cases h

theorem stepFn_inv (c : Conf) (e : Ev) (c' : Conf)
    (h : stepFn c e = some c') (hbc : c.busy = countTrue c.workers) :
    c'.busy = countTrue c'.workers := by
  cases e with
  | dispatchFast w =>
    simp only [stepFn] at h
    split at h
    · next hcond =>
      injection h with h
      subst h
      simp only
      rw [countTrue_set_true c.workers w hcond.1, hbc]
    · cases h
  | dispatchSlow w =>
    simp only [stepFn] at h
    split at h
    · next hcond =>
      injection h with h
      subst h
      simp only
      rw [countTrue_set_true c.workers w hcond.1, hbc]
    · cases h
  | handbackFast w k =>
    simp only [stepFn] at h
    split at h
    · injection h with h
      subst h
      exact hbc
    · cases h
  | handbackSlow w k =>
    simp only [stepFn] at h
    split at h
    · injection h with h
      subst h
      exact hbc
    · cases h
  | release w =>
    simp only [stepFn] at h
    split at h
    · next hcond =>
      injection h with h
      subst h
      simp only
      have := countTrue_set_false c.workers w hcond
      omega
    · cases h

theorem execFrom_inv (es : List Ev) :
    ∀ (c c' : Conf), execFrom c es = some c' →
      c.busy = countTrue c.workers → c'.busy = countTrue c'.workers := by
  induction es with
  | nil =>
    intro c c' h hbc
    simp only [execFrom] at h
    injection h with h
    subst h
    exact hbc
  | cons e t ih =>
    intro c c' h hbc
    simp only [execFrom] at h
    cases hstep : stepFn c e with
    | none => rw [hstep] at h; cases h
    | some c1 =>
      rw [hstep] at h
      exact ih c1 c' h (stepFn_inv c e c1 hstep hbc)

theorem execFrom_append (l1 l2 : List Ev) :
    ∀ c : Conf, execFrom c (l1 ++ l2) =
      (execFrom c l1).bind (fun x => execFrom x l2) := by
  induction l1 with
  | nil => intro c; rfl
  | cons e t ih =>
    intro c
    simp only [List.cons_append, execFrom]
    cases stepFn c e with
    | none => rfl
    | some c1 => exact ih c1

theorem flip_zero (es : List Ev) :
    ∀ c : Conf, c.notfinished = false → flipCount c es = 0 := by
  induction es with
  | nil => intro c _; rfl
  | cons e t ih =>
    intro c hnf
    cases hstep : stepFn c e with
    | none => simp [flipCount, hstep]
    | some c1 =>
      simp only [flipCount, hstep]
      rw [if_neg (by rintro ⟨h1, -⟩; rw [h1] at hnf; cases hnf)]
      rw [ih c1 (stepFn_nf_mono c e c1 hstep hnf)]

theorem flip_le_one (es : List Ev) : ∀ c : Conf, flipCount c es ≤ 1 := by
  induction es with
  | nil => intro c; simp [flipCount]
  | cons e t ih =>
    intro c
    cases hstep : stepFn c e with
    | none => simp [flipCount, hstep]
    | some c1 =>
      simp only [flipCount, hstep]
      by_cases hflip : c.notfinished = true ∧ c1.notfinished = false
      · rw [if_pos hflip, flip_zero t c1 hflip.2]
      · rw [if_neg hflip]
        have := ih c1
        omega

theorem flip_ge_one (es : List Ev) :
    ∀ (c c' : Conf), execFrom c es = some c' → c.notfinished = true →
      c'.notfinished = false → 1 ≤ flipCount c es := by
  induction es with
  | nil =>
    intro c c' h htrue hfalse
    simp only [execFrom] at h
    injection h with h
    subst h
    rw [htrue] at hfalse
    cases hfalse
  | cons e t ih =>
    intro c c' h htrue hfalse
    simp only [execFrom] at h
    cases hstep : stepFn c e with
    | none => rw [hstep] at h; cases h
    | some c1 =>
      rw [hstep] at h
      simp only [flipCount, hstep]
      by_cases h1 : c1.notfinished = false
      · rw [if_pos ⟨htrue, h1⟩]
        omega
      · rw [if_neg (by rintro ⟨-, hc⟩; exact h1 hc)]
        have := ih c1 c' h (by simpa using h1) hfalse
        omega

theorem flip_release (c : Conf) (e : Ev) (c' : Conf)
    (h : stepFn c e = some c') (htrue : c.notfinished = true)
    (hfalse : c'.notfinished = false) :
    (∃ w, e = Ev.release w) ∧ c'.busy = 0 ∧ c'.fast = 0 ∧ c'.slow = 0 := by
  cases e with
  | dispatchFast w =>
    simp only [stepFn] at h
    split at h
    · injection h with h
      subst h
      rw [htrue] at hfalse
      cases hfalse
    · cases h
  | dispatchSlow w =>
    simp only [stepFn] at h
    split at h
    · injection h with h
      subst h
      rw [htrue] at hfalse
      cases hfalse
    · cases h
  | handbackFast w k =>
    simp only [stepFn] at h
    split at h
    · injection h with h
      subst h
      rw [htrue] at hfalse
      cases hfalse
    · cases h
  | handbackSlow w k =>
    simp only [stepFn] at h
    split at h
    · injection h with h
      subst h
      rw [htrue] at hfalse
      cases hfalse
    · cases h
  | release w =>
    simp only [stepFn] at h
    split at h
    · injection h with h
      subst h
      simp only at hfalse
      refine ⟨⟨w, rfl⟩, ?_⟩
      by_cases hcond : c.busy - 1 = 0 ∧ c.fast = 0 ∧ c.slow = 0
      · exact hcond
      · rw [if_neg hcond, htrue] at hfalse
        cases hfalse
    · cases h

theorem dead_state (c : Conf) (hnf : c.notfinished = false)
    (hbc : c.busy = countTrue c.workers) (hb0 : c.busy = 0) (e : Ev) :
    stepFn c e = none := by
  have hidle : ∀ w, c.workers.getD w false = false :=
    countTrue_zero c.workers (by omega)
  cases e with
  | dispatchFast w =>
    simp only [stepFn]
    rw [if_neg]
    rintro ⟨-, h2, -⟩
    rw [h2] at hnf
    cases hnf
  | dispatchSlow w =>
    simp only [stepFn]
    rw [if_neg]
    rintro ⟨-, h2, -⟩
    rw [h2] at hnf
    cases hnf
  | handbackFast w k =>
    simp only [stepFn]
    rw [if_neg]
    rintro ⟨h1, -⟩
    rw [hidle w] at h1
    cases h1
  | handbackSlow w k =>
    simp only [stepFn]
    rw [if_neg]
    rintro ⟨h1, -⟩
    rw [hidle w] at h1
    cases h1
  | release w =>
    simp only [stepFn]
    rw [if_neg]
    intro h1
    rw [hidle w] at h1
    cases h1

/-! ## Lemmas about the chown cascades and the run semantics -/

theorem uid_scan_dry (islink : Bool) (ok : Nat → Nat → Bool)
    (umap : List (Nat × Nat)) (uid : Nat) :
    uid_scan true islink ok umap uid =
      match lookup_pair umap uid with
      | some p => [Act.stdout_uid_line p.1 p.2]
      | none => [] := by
  induction umap with
  | nil => rfl
  | cons p rest ih =>
    obtain ⟨o, n⟩ := p
    simp only [uid_scan, lookup_pair]
    by_cases h : o = uid
    · simp [h]
    · simp [h, ih]

theorem gid_scan_dry (islink : Bool) (ok : Nat → Nat → Bool)
    (gmap : List (Nat × Nat)) (gid : Nat) :
    gid_scan true islink ok gmap gid =
      match lookup_pair gmap gid with
      | some p => [Act.stdout_gid_line p.1 p.2]
      | none => [] := by
  induction gmap with
  | nil => rfl
  | cons p rest ih =>
    obtain ⟨o, n⟩ := p
    simp only [gid_scan, lookup_pair]
    by_cases h : o = gid
    · simp [h]
    · simp [h, ih]

theorem apply_map_lookup (m : List (Nat × Nat)) (x : Nat) :
    apply_map m x =
      match lookup_pair m x with
      | some p => p.2
      | none => x := by
  induction m with
  | nil => rfl
  | cons p rest ih =>
    obtain ⟨o, n⟩ := p
    simp only [apply_map, lookup_pair]
    by_cases h : o = x
    · simp [h]
    · simp [h, ih]

theorem lookup_pair_mem (m : List (Nat × Nat)) (x : Nat) :
    ∀ p, lookup_pair m x = some p → p ∈ m := by
  induction m with
  | nil => intro p h; cases h
  | cons q rest ih =>
    obtain ⟨o, n⟩ := q
    intro p h
    simp only [lookup_pair] at h
    by_cases ho : o = x
    · rw [if_pos ho] at h
      injection h with h
      subst h
      exact List.mem_cons_self _ _
    · rw [if_neg ho] at h
      exact List.mem_cons_of_mem _ (ih p h)

theorem apply_map_idem (m : List (Nat × Nat))
    (hm : ∀ p ∈ m, apply_map m p.2 = p.2) (x : Nat) :
    apply_map m (apply_map m x) = apply_map m x := by
  cases hl : lookup_pair m x with
  | none =>
    have hx : apply_map m x = x := by rw [apply_map_lookup m x, hl]
    rw [hx]
    exact hx
  | some p =>
    have hx : apply_map m x = p.2 := by rw [apply_map_lookup m x, hl]
    rw [hx]
    exact hm p (lookup_pair_mem m x p hl)

/-! ## Claim theorems -/

/-- C1: for every run and every (dev, ino) class of regular files with
nlink > 1 among the linearized visits, at most one visit proceeds to the id
rewrite: the first visit registers the pair in the shared HardlinkSet under
the thr_nlink mutex and rewrites, and every later visit of the class skips
the rewrite; when the class is visited at all, exactly one visit rewrites. -/
theorem c1_hardlink_dedup (vs : List RegVisit) (i d : Nat) :
    class_rewrite_count vs i d ≤ 1 ∧
      ((∃ v ∈ vs, v.ino = i ∧ v.dev = d ∧ 1 < v.nlink) →
        class_rewrite_count vs i d = 1) := by
  constructor
  · exact crc_from_le_one vs _ i d (h_init_inv _ _)
  · intro hex
    exact crc_from_one vs _ i d (h_init_inv _ _) (by simp [h_init]) hex

/-- Witness for C1 at a concrete visit list: the class (4, 3) with nlink 2 is
visited twice and rewritten exactly once. -/
theorem c1_hardlink_dedup_witness :
    (∃ v ∈ [RegVisit.mk 3 4 2, RegVisit.mk 3 4 2],
        v.ino = 3 ∧ v.dev = 4 ∧ 1 < v.nlink) ∧
      class_rewrite_count [RegVisit.mk 3 4 2, RegVisit.mk 3 4 2] 3 4 = 1 :=
  ⟨by decide, (c1_hardlink_dedup [RegVisit.mk 3 4 2, RegVisit.mk 3 4 2] 3 4).2
    (by decide)⟩

/-- C2: along any valid interleaving of the guarded critical sections of the
workers, notfinished is flipped from true to false at most once, exactly once
when the run ends with notfinished false; the flipping step is the release of
a single worker whose decrement makes busy_count zero with both shared deques
empty, and no further step of any worker can follow it. -/
theorem c2_quiescence (n r : Nat) (es : List Ev) (c' : Conf)
    (hrun : execFrom (initConf n r) es = some c') :
    flipCount (initConf n r) es ≤ 1 ∧
      (c'.notfinished = false → flipCount (initConf n r) es = 1) ∧
      ∀ pre e post c1 c2, es = pre ++ e :: post →
        execFrom (initConf n r) pre = some c1 → stepFn c1 e = some c2 →
        c1.notfinished = true → c2.notfinished = false →
        (∃ w, e = Ev.release w) ∧ c2.busy = 0 ∧ c2.fast = 0 ∧ c2.slow = 0 ∧
          post = [] := by
  refine ⟨flip_le_one es _, ?_, ?_⟩
  · intro hfin
    have h1 := flip_ge_one es _ c' hrun rfl hfin
    have h2 := flip_le_one es (initConf n r)
    omega
  · intro pre e post c1 c2 hsplit hpre hstep htrue hfalse
    obtain ⟨hw, hbusy0, hfast0, hslow0⟩ := flip_release c1 e c2 hstep htrue hfalse
    refine ⟨hw, hbusy0, hfast0, hslow0, ?_⟩
    have hinv1 : c1.busy = countTrue c1.workers :=
      execFrom_inv pre _ c1 hpre (by simp [initConf, countTrue_replicate])
    have hinv2 : c2.busy = countTrue c2.workers := stepFn_inv c1 e c2 hstep hinv1
    cases post with
    | nil => rfl
    | cons e2 rest =>
      exfalso
      subst hsplit
      rw [execFrom_append pre (e :: e2 :: rest) (initConf n r), hpre] at hrun
      simp only [Option.some_bind] at hrun
      simp only [execFrom, hstep] at hrun
      rw [dead_state c2 hfalse hinv2 hbusy0 e2] at hrun
      cases hrun

/-- Witness for C2: one worker drains a single root and its release flips
notfinished exactly once. -/
theorem c2_quiescence_witness :
    flipCount (initConf 1 1) [Ev.dispatchFast 0, Ev.release 0] = 1 :=
  (c2_quiescence 1 1 [Ev.dispatchFast 0, Ev.release 0]
      { workers := [false], fast := 0, slow := 0, busy := 0,
        notfinished := false }
      (by decide)).2.1 rfl

/-- C3: the dual-queue dispatch follows the credit rule: with positive credit
it pops the fast deque and decrements the credit, consulting the slow deque
only when the fast deque is empty, in which case a successful slow take
recomputes the credit; with zero credit it pops the slow deque and recomputes
the credit on success, while the fallback take from the fast deque leaves the
credit at zero. -/
theorem c3_dispatch_credit (s : Sched) :
    (∀ x xs, 0 < s.credit → s.fast = x :: xs →
        dispatch_select s =
          (some x, { s with fast := xs, credit := s.credit - 1 })) ∧
      (∀ y ys, 0 < s.credit → s.fast = [] → s.slow = y :: ys →
        dispatch_select s =
          (some y, { s with slow := ys,
                            credit := recalc_credit s.fast_speed s.slow_speed })) ∧
      (∀ y ys, s.credit = 0 → s.slow = y :: ys →
        dispatch_select s =
          (some y, { s with slow := ys,
                            credit := recalc_credit s.fast_speed s.slow_speed })) ∧
      (∀ x xs, s.credit = 0 → s.slow = [] → s.fast = x :: xs →
        dispatch_select s = (some x, { s with fast := xs }) ∧
          (dispatch_select s).2.credit = 0) := by
  refine ⟨?_, ?_, ?_, ?_⟩
  · intro x xs hc hf
    unfold dispatch_select
    rw [if_pos hc, hf]
  · intro y ys hc hf hs
    unfold dispatch_select
    rw [if_pos hc, hf, hs]
  · intro y ys hc hs
    unfold dispatch_select
    rw [if_neg (by rw [hc]; exact lt_irrefl 0), hs]
  · intro x xs hc hs hf
    have hsel : dispatch_select s = (some x, { s with fast := xs }) := by
      unfold dispatch_select
      rw [if_neg (by rw [hc]; exact lt_irrefl 0), hs, hf]
    exact ⟨hsel, by rw [hsel]; exact hc⟩

/-- Witness for C3: the four dispatch cases at concrete scheduler states. -/
theorem c3_dispatch_credit_witness :
    dispatch_select (Sched.mk [10, 11] [20] 1 1 2) =
        (some 10, { Sched.mk [10, 11] [20] 1 1 2 with
                      fast := [11], credit := 2 - 1 }) ∧
      dispatch_select (Sched.mk [] [20, 21] 1 1 2) =
        (some 20, { Sched.mk [] [20, 21] 1 1 2 with
                      slow := [21], credit := recalc_credit 1 1 }) ∧
      dispatch_select (Sched.mk [10] [20, 21] 1 1 0) =
        (some 20, { Sched.mk [10] [20, 21] 1 1 0 with
                      slow := [21], credit := recalc_credit 1 1 }) ∧
      dispatch_select (Sched.mk [10, 11] [] 1 1 0) =
        (some 10, { Sched.mk [10, 11] [] 1 1 0 with fast := [11] }) ∧
      (dispatch_select (Sched.mk [10, 11] [] 1 1 0)).2.credit = 0 :=
  ⟨(c3_dispatch_credit (Sched.mk [10, 11] [20] 1 1 2)).1 10 [11] (by decide) rfl,
   (c3_dispatch_credit (Sched.mk [] [20, 21] 1 1 2)).2.1 20 [21] (by decide) rfl
     rfl,
   (c3_dispatch_credit (Sched.mk [10] [20, 21] 1 1 0)).2.2.1 20 [21] rfl rfl,
   (c3_dispatch_credit (Sched.mk [10, 11] [] 1 1 0)).2.2.2 10 [11] rfl rfl rfl⟩

/-- C4: in dry-run mode the cascades for one visited entry perform no chown
and no lchown call; the first matching uid mapping and, independently, the
first matching gid mapping each produce exactly one formatted stdout line,
and the ownership of the entry is left unchanged. -/
theorem c4_dry_run (islink : Bool) (ok : Nat → Nat → Bool)
    (umap gmap : List (Nat × Nat)) (uid gid : Nat) :
    (∀ a ∈ process_entry true islink ok umap gmap uid gid,
        is_chown_act a = false) ∧
      process_entry true islink ok umap gmap uid gid =
        (match lookup_pair umap uid with
         | some p => [Act.stdout_uid_line p.1 p.2]
         | none => []) ++
          (match lookup_pair gmap gid with
           | some p => [Act.stdout_gid_line p.1 p.2]
           | none => []) ∧
      (process_entry true islink ok umap gmap uid gid).foldl apply_act
          (uid, gid) = (uid, gid) := by
  have hu := uid_scan_dry islink ok umap uid
  have hg := gid_scan_dry islink ok gmap gid
  refine ⟨?_, ?_, ?_⟩ <;>
    cases hul : lookup_pair umap uid <;> cases hgl : lookup_pair gmap gid <;>
      simp [process_entry, hu, hg, hul, hgl, is_chown_act, apply_act]

/-- Witness for C4 at scenario 6 of the spec: one uid line and one gid line,
no filesystem action, ownership unchanged. -/
theorem c4_dry_run_witness :
    is_chown_act (Act.stdout_uid_line 1000 1001) = false ∧
      process_entry true false (fun _ _ => true) [(1000, 1001)] [(2000, 2001)]
          1000 2000 =
        [Act.stdout_uid_line 1000 1001, Act.stdout_gid_line 2000 2001] ∧
      (process_entry true false (fun _ _ => true) [(1000, 1001)] [(2000, 2001)]
            1000 2000).foldl apply_act (1000, 2000) = (1000, 2000) := by
  have h := c4_dry_run false (fun _ _ => true) [(1000, 1001)] [(2000, 2001)]
    1000 2000
  refine ⟨h.1 (Act.stdout_uid_line 1000 1001) (by decide), ?_, h.2.2⟩
  rw [h.2.1]
  decide

/-- C5 counterexample: with the chained map u 1000 to 2000, u 2000 to 3000, a
second run over an entry owned 1000 changes the uid again (2000 becomes
3000), so running twice is not equivalent to running once. -/
theorem c5_idempotence_cex :
    ¬ (run_once [(1000, 2000), (2000, 3000)] []
          (run_once [(1000, 2000), (2000, 3000)] [] [(1000, 0)]) =
        run_once [(1000, 2000), (2000, 3000)] [] [(1000, 0)]) := by decide

/-- C5 amended: running twice in a row equals running once provided no new id
of either map is itself remapped by the same map (each new id is a fixed
point of its map); without that proviso the claim fails, see the
counterexample. -/
theorem c5_idempotence_amended (umap gmap : List (Nat × Nat))
    (hu : ∀ p ∈ umap, apply_map umap p.2 = p.2)
    (hg : ∀ p ∈ gmap, apply_map gmap p.2 = p.2) (fs : List (Nat × Nat)) :
    run_once umap gmap (run_once umap gmap fs) = run_once umap gmap fs := by
  induction fs with
  | nil => rfl
  | cons e t ih =>
    simp only [run_once, List.map_cons] at ih ⊢
    rw [apply_map_idem umap hu, apply_map_idem gmap hg, ih]

/-- Witness for C5 amended: the map u 1000 to 2000 has its new id unmapped,
and the second run is a no-op. -/
theorem c5_idempotence_amended_witness :
    run_once [(1000, 2000)] [] (run_once [(1000, 2000)] [] [(1000, 7)]) =
      run_once [(1000, 2000)] [] [(1000, 7)] :=
  c5_idempotence_amended [(1000, 2000)] [] (by decide) (by decide) [(1000, 7)]

/-- C7 counterexample: with 5 directories scanned and zero elapsed wall-clock
time the code computes scan rate 5, not 0 as the claim states. -/
theorem c7_scanrate_cex : ¬ scanrate_of 5 0 = 0 := by
  norm_num [scanrate_of]

/-- C7 amended: at a handback the scan rate equals directories scanned over
elapsed wall clock when the elapsed time is positive, and equals the bare
directories-scanned count (not 0) when the elapsed time is zero or below. -/
theorem c7_scanrate_amended (ds : Nat) (delta : Rat) :
    (0 < delta → scanrate_of ds delta = (ds : Rat) / delta) ∧
      (delta ≤ 0 → scanrate_of ds delta = (ds : Rat)) := by
  constructor
  · intro h
    simp only [scanrate_of]
    rw [if_pos h]
  · intro h
    simp only [scanrate_of]
    rw [if_neg (not_lt.mpr h)]

/-- Witness for C7 amended at elapsed 2 and at elapsed 0. -/
theorem c7_scanrate_amended_witness :
    (0 < (2 : Rat) ∧ scanrate_of 6 2 = (6 : Rat) / 2) ∧
      ((0 : Rat) ≤ 0 ∧ scanrate_of 6 0 = (6 : Rat)) :=
  ⟨⟨by norm_num, (c7_scanrate_amended 6 2).1 (by norm_num)⟩,
   ⟨le_refl 0, (c7_scanrate_amended 6 0).2 (le_refl 0)⟩⟩

/-- C8: evaluation of the thread-cap code at a failing input.  With
max_open_fds 100 a request of 200 threads is accepted unchanged, because the
unsigned size_t subtraction 100 - 200 wraps far above OPENFILES_OFFSET and
the cap branch is skipped, violating N + RESERVED_FDS at most max_open_fds;
a request of 100 threads is correctly reduced to 95. -/
theorem c8_fd_cap_eval :
    cap_threads 200 100 = some 200 ∧ ¬ (200 + OPENFILES_OFFSET ≤ 100) ∧
      cap_threads 100 100 = some 95 := by decide

theorem seed_roots_fst (roots : List (Nat × Bool)) :
    (seed_roots roots).1 = (roots.filter (fun r => r.2)).map Prod.fst := by
  induction roots with
  | nil => rfl
  | cons p t ih =>
    obtain ⟨a, ok⟩ := p
    cases ok <;> simp [seed_roots, List.filter_cons, ih]

theorem seed_roots_snd (roots : List (Nat × Bool)) :
    (seed_roots roots).2 = (roots.filter (fun r => !r.2)).map Prod.fst := by
  induction roots with
  | nil => rfl
  | cons p t ih =>
    obtain ⟨a, ok⟩ := p
    cases ok <;> simp [seed_roots, List.filter_cons, ih]

/-- C9: every configured root is lstat-ed by the main thread before seeding:
exactly the roots passing lstat are placed on the fast deque, every failing
root is logged at WARNING and dropped, and when no root passes the program
exits with failure before any worker thread is started (worker creation
happens only on the ok branch of the seeding phase). -/
theorem c9_root_seeding (roots : List (Nat × Bool)) :
    (seed_roots roots).1 = (roots.filter (fun r => r.2)).map Prod.fst ∧
      (seed_roots roots).2 = (roots.filter (fun r => !r.2)).map Prod.fst ∧
      (roots.filter (fun r => r.2) = [] →
        ∃ ec, main_seed roots = Except.error ec) ∧
      ∀ q, main_seed roots = Except.ok q →
        q = (roots.filter (fun r => r.2)).map Prod.fst ∧ q ≠ [] := by
  have h1 := seed_roots_fst roots
  have h2 := seed_roots_snd roots
  refine ⟨h1, h2, ?_, ?_⟩
  · intro hf
    by_cases hr : roots = []
    · exact ⟨1, by rw [main_seed, if_pos hr]⟩
    · refine ⟨1, ?_⟩
      rw [main_seed, if_neg hr, if_pos (by rw [h1, hf]; rfl)]
  · intro q hq
    rw [main_seed] at hq
    by_cases hr : roots = []
    · rw [if_pos hr] at hq
      cases hq
    · rw [if_neg hr] at hq
      by_cases hempty : (seed_roots roots).1 = []
      · rw [if_pos hempty] at hq
        cases hq
      · rw [if_neg hempty] at hq
        injection hq with hq
        subst hq
        exact ⟨h1, hempty⟩

/-- Witness for C9: a root failing lstat is warned and the run aborts; a run
whose single root passes lstat proceeds with it on the fast deque. -/
theorem c9_root_seeding_witness :
    (∃ ec, main_seed [(7, false)] = Except.error ec) ∧
      (seed_roots [(7, false)]).2 = [7] ∧
      ([8] = ([((8 : Nat), true)].filter (fun r => r.2)).map Prod.fst ∧
        ([8] : List Nat) ≠ []) :=
  ⟨(c9_root_seeding [(7, false)]).2.2.1 (by decide),
   by rw [(c9_root_seeding [(7, false)]).2.1]; decide,
   (c9_root_seeding [(8, true)]).2.2.2 [8] rfl⟩

/-- C10: HardlinkSet membership is preserved across growth.  First, the
already-seen answers of any serialized h_mins call sequence from the initial
table coincide with the plain set semantics, so the answers are independent
of when resizes occur; second, the growth step doubles both the bucket count
and the arena capacity; third, every pair inserted earlier in a run is still
reported as already present by a later h_mins call, across any resizes the
run performed. -/
theorem c10_hash_growth :
    (∀ cs, runMins (h_init INIT_MODULE INIT_TAB_SIZE) cs =
        firstSeenSpec [] cs) ∧
      (∀ ht : Htab, (h_grow ht).mod = 2 * ht.mod ∧
        (h_grow ht).het_tab_size = 2 * ht.het_tab_size) ∧
      ∀ (cs : List (Nat × Nat)) (p : Nat × Nat), p ∈ cs →
        (h_mins (runState (h_init INIT_MODULE INIT_TAB_SIZE) cs) p.1 p.2).1 =
          true := by
  refine ⟨?_, fun ht => ⟨h_grow_mod ht, h_grow_size ht⟩, ?_⟩
  · intro cs
    exact runMins_spec cs _ [] (h_init_inv _ _) (fun q => by simp [h_init])
  · intro cs p hp
    obtain ⟨hinv, hmem⟩ :=
      runState_spec cs _ (h_init_inv INIT_MODULE INIT_TAB_SIZE)
    rw [h_mins_fst _ _ _ hinv]
    exact decide_eq_true ((hmem p).mpr (Or.inl hp))

/-- Witness for C10: a pair inserted by an earlier call is reported present
by a later call. -/
theorem c10_hash_growth_witness :
    ((3, 4) ∈ [((3 : Nat), (4 : Nat)), (5, 6)]) ∧
      (h_mins (runState (h_init INIT_MODULE INIT_TAB_SIZE) [(3, 4), (5, 6)])
          3 4).1 = true :=
  ⟨by decide, c10_hash_growth.2.2 [(3, 4), (5, 6)] (3, 4) (by decide)⟩

end Chuid
